import Mathlib

/-!
A verification development for the `interner` crate (`src/lib.rs`): a
content-addressed interning pool.  Values are keyed by a SHA-1 digest of
their content (`InternKey`); the pool (`Interner<T>`) holds a
`Mutex<HashMap<InternKey, InternField<T>>>` mapping each key to a slot
(`InternField<T>`) that owns the canonical value and an atomic reference
count; callers hold handles (`Interned<'a, T>`) that dereference to the
slot's value, bump the count on creation and clone, and on drop decrement
it and, when the pre-decrement count was 1, re-check the count under the
table lock and remove the entry if it is still 0.

The embedding below translates the source operations into pure functions
over an association-list table (the single table lock linearizes every
structural operation, so the locked sections are modelled as atomic state
transformers), and adds a small interleaving step relation whose atomic
actions are exactly the source's atomic sections: the whole locked body of
`intern_with`, the unlocked `fetch_add` of `Clone`, the unlocked
`fetch_sub` of `Drop`, and the locked re-check/remove section of `Drop`.
-/

/-- The content key (`InternKey`): a 160-bit SHA-1 digest with byte-wise
equality, modelled as a natural number.  `InternKey::hash` itself (the SHA-1
computation) is kept abstract: every theorem is parametrized by a digest
function `hash : T → InternKey`, and speaks of values with equal canonical
encodings via the hypothesis `hash a = hash b`. -/
abbrev InternKey := Nat

/-- `InternField<T>`: one table slot, owning the canonical value `data` and
its reference count (`AtomicUsize`, modelled as an unbounded counter: each
live handle contributes exactly one to it, so 2^64 wraparound is
unreachable).  `id` is the slot's allocation identity, assigned once when
the slot is created and never changed afterwards; two handles reference the
same stored object exactly when they carry the same `id`. -/
structure InternField (T : Type) where
  id : Nat
  count : Nat
  data : T
deriving DecidableEq

/-- `Interner<T>`: the pool.  `map` is the
`Mutex<HashMap<InternKey, InternField<T>>>` as an association list, and
`nextId` is the allocation counter handing out slot identities. -/
structure Interner (T : Type) where
  map : List (InternKey × InternField T)
  nextId : Nat
deriving DecidableEq

/-- `Interned<'a, T>`: a handle, holding the content key and the slot
reference (modelled by the slot's allocation identity); the pool reference
of the source (`interner: &'a Interner<T>`) is the ambient `Interner`
state. -/
structure Interned (T : Type) where
  key : InternKey
  fieldId : Nat
deriving DecidableEq

/-- Lookup in the table: `HashMap::get` / the `Entry` probe. -/
def mapFind {T : Type} : List (InternKey × InternField T) → InternKey → Option (InternField T)
  | [], _ => none
  | (k, f) :: rest, key => if k = key then some f else mapFind rest key

/-- Apply `g` to the count of the entry for `key` (the atomic
`fetch_add`/`fetch_sub` on the slot's count, reached through the entry);
identity when the key is absent. -/
def mapModify {T : Type} : List (InternKey × InternField T) → InternKey → (Nat → Nat) → List (InternKey × InternField T)
  | [], _, _ => []
  | (k, f) :: rest, key, g =>
    if k = key then (k, ⟨f.id, g f.count, f.data⟩) :: rest
    else (k, f) :: mapModify rest key g

/-- Remove the entry for `key`: `OccupiedEntry::remove`. -/
def mapRemove {T : Type} : List (InternKey × InternField T) → InternKey → List (InternKey × InternField T)
  | [], _ => []
  | (k, f) :: rest, key =>
    if k = key then mapRemove rest key
    else (k, f) :: mapRemove rest key

/-- The count stored for `key`, taking 0 for an absent key. -/
def countOf {T : Type} (s : Interner T) (k : InternKey) : Nat :=
  match mapFind s.map k with
  | some fld => fld.count
  | none => 0

theorem mapFind_mapModify_self {T : Type} (m : List (InternKey × InternField T)) (key : InternKey) (g : Nat → Nat) :
    mapFind (mapModify m key g) key = (mapFind m key).map (fun f => ⟨f.id, g f.count, f.data⟩) := by
  induction m with
  | nil => rfl
  | cons e rest ih =>
    obtain ⟨k, f⟩ := e
    by_cases hk : k = key
    · simp [mapModify, mapFind, hk]
    · simp [mapModify, mapFind, hk, ih]

theorem mapFind_mapModify_ne {T : Type} (m : List (InternKey × InternField T)) (key k' : InternKey) (g : Nat → Nat)
    (h : k' ≠ key) :
    mapFind (mapModify m key g) k' = mapFind m k' := by
  induction m with
  | nil => rfl
  | cons e rest ih =>
    obtain ⟨k, f⟩ := e
    by_cases hk : k = key
    · subst hk
      simp [mapModify, mapFind, Ne.symm h]
    · by_cases hk' : k = k'
      · subst hk'
        simp [mapModify, mapFind, h, hk]
      · simp [mapModify, mapFind, hk, hk', ih]

theorem mapFind_mapRemove_self {T : Type} (m : List (InternKey × InternField T)) (key : InternKey) :
    mapFind (mapRemove m key) key = none := by
  induction m with
  | nil => rfl
  | cons e rest ih =>
    obtain ⟨k, f⟩ := e
    by_cases hk : k = key
    · simp [mapRemove, hk, ih]
    · simp [mapRemove, mapFind, hk, ih]

theorem mapFind_mapRemove_ne {T : Type} (m : List (InternKey × InternField T)) (key k' : InternKey)
    (h : k' ≠ key) :
    mapFind (mapRemove m key) k' = mapFind m k' := by
  induction m with
  | nil => rfl
  | cons e rest ih =>
    obtain ⟨k, f⟩ := e
    by_cases hk : k = key
    · subst hk
      simp [mapRemove, mapFind, Ne.symm h, ih]
    · simp [mapRemove, mapFind, hk, ih]

theorem mapModify_keys {T : Type} (m : List (InternKey × InternField T)) (key : InternKey) (g : Nat → Nat) :
    (mapModify m key g).map Prod.fst = m.map Prod.fst := by
  induction m with
  | nil => rfl
  | cons e rest ih =>
    obtain ⟨k, f⟩ := e
    by_cases hk : k = key
    · simp [mapModify, hk]
    · simp [mapModify, hk, ih]

theorem mapRemove_keys_sublist {T : Type} (m : List (InternKey × InternField T)) (key : InternKey) :
    ((mapRemove m key).map Prod.fst).Sublist (m.map Prod.fst) := by
  induction m with
  | nil => simp [mapRemove]
  | cons e rest ih =>
    obtain ⟨k, f⟩ := e
    by_cases hk : k = key
    · simp only [mapRemove, hk, if_pos rfl]
      exact ih.trans (List.sublist_cons_self _ _)
    · simpa [mapRemove, hk] using ih.cons₂ k

theorem mapFind_eq_none_iff {T : Type} (m : List (InternKey × InternField T)) (key : InternKey) :
    mapFind m key = none ↔ key ∉ m.map Prod.fst := by
  induction m with
  | nil => simp [mapFind]
  | cons e rest ih =>
    obtain ⟨k, f⟩ := e
    by_cases hk : k = key
    · simp [mapFind, hk]
    · simp [mapFind, hk, ih, Ne.symm hk]

/-- `Interner::new()`: an empty pool. -/
def Interner.new {T : Type} : Interner T := ⟨[], 0⟩

/-- `Interner::intern_with(key, f)`: the whole body runs under the table
lock.  `map.entry(key)`: on `Occupied`, reuse the existing slot; on
`Vacant`, insert a fresh slot `{ count: AtomicUsize::new(0), data: f() }` —
the build closure `f` is invoked only here.  Then `field.count.fetch_add(1)`
and hand out a handle to the slot.  The extra `Bool` in the result records
whether the `Vacant` arm ran, i.e. whether `f` was invoked (the theorems
also establish the stronger fact that on a hit the result does not depend
on `f` at all). -/
def Interner.intern_with {T : Type} (s : Interner T) (key : InternKey) (f : Unit → T) :
    Interner T × Interned T × Bool :=
  match mapFind s.map key with
  | some fld =>
    (⟨mapModify s.map key (fun c => c + 1), s.nextId⟩, ⟨key, fld.id⟩, false)
  | none =>
    (⟨mapModify ((key, ⟨s.nextId, 0, f ()⟩) :: s.map) key (fun c => c + 1), s.nextId + 1⟩,
      ⟨key, s.nextId⟩, true)

/-- `Interner::intern(data)`: hash the owned value and intern it, the build
closure moving `data` in. -/
def Interner.intern {T : Type} (hash : T → InternKey) (s : Interner T) (data : T) :
    Interner T × Interned T × Bool :=
  s.intern_with (hash data) (fun _ => data)

/-- `Interner::intern_borrowed(data)`: hash the borrowed view and intern,
the build closure being `data.to_owned()` — `to_owned` runs only if the
`Vacant` arm is taken. -/
def Interner.intern_borrowed {T B : Type} (hashB : B → InternKey) (toOwned : B → T)
    (s : Interner T) (data : B) : Interner T × Interned T × Bool :=
  s.intern_with (hashB data) (fun _ => toOwned data)

/-- `Deref for Interned`: `&self.field.data`.  The handle reads through its
slot reference; in the embedding the slot is the table entry at the
handle's key. -/
def Interner.deref {T : Type} (s : Interner T) (h : Interned T) : Option T :=
  (mapFind s.map h.key).map (fun fld => fld.data)

/-- `Clone for Interned`: `self.field.count.fetch_add(1, Relaxed)` — no
table lock — then copy the (key, pool, slot) triple into the new handle. -/
def Interner.clone_interned {T : Type} (s : Interner T) (h : Interned T) :
    Interner T × Interned T :=
  (⟨mapModify s.map h.key (fun c => c + 1), s.nextId⟩, ⟨h.key, h.fieldId⟩)

/-- The unlocked first half of `Drop for Interned`:
`self.field.count.fetch_sub(1, Relaxed)`, returning the pre-decrement
count.  For a live handle the entry is present with count ≥ 1 (the
reachability invariant below); the absent case is the dangling-pointer
situation the source can never decide, and is left as the identity with
pre-count 0. -/
def Interner.fetch_sub {T : Type} (s : Interner T) (k : InternKey) : Interner T × Nat :=
  match mapFind s.map k with
  | some fld => (⟨mapModify s.map k (fun c => c - 1), s.nextId⟩, fld.count)
  | none => (s, 0)

/-- The locked second half of `Drop for Interned`, entered only when the
pre-decrement count was 1: under the table lock, probe `map.entry(key)`;
on `Occupied`, re-load the count (`SeqCst`) and `remove` the entry exactly
when it is still 0; on `Vacant`, the source panics ("The Interned was not
really interned!") — modelled as `none`. -/
def Interner.evict {T : Type} (s : Interner T) (key : InternKey) : Option (Interner T) :=
  match mapFind s.map key with
  | some fld =>
    if fld.count = 0 then some ⟨mapRemove s.map key, s.nextId⟩ else some s
  | none => none

/-- `Drop for Interned` run without interleaving: the `fetch_sub`, then,
exactly when the pre-decrement count was 1, the locked eviction section. -/
def Interner.drop_interned {T : Type} (s : Interner T) (k : InternKey) : Option (Interner T) :=
  let r := s.fetch_sub k
  if r.2 = 1 then r.1.evict k else some r.1

/-- `PartialEq for Interned`: `self.key == other.key`. -/
def Interned.beq {T : Type} (h1 h2 : Interned T) : Bool :=
  h1.key == h2.key

/-- `Hash for Interned`: the handle hashes by feeding exactly its content
key to the hasher, so the key is the whole hash input. -/
def Interned.hashInput {T : Type} (h : Interned T) : InternKey :=
  h.key

/-- Pointwise increment of a key-indexed counter at one key. -/
def fInc (g : InternKey → Nat) (k : InternKey) : InternKey → Nat :=
  fun k' => if k' = k then g k' + 1 else g k'

/-- Pointwise decrement of a key-indexed counter at one key. -/
def fDec (g : InternKey → Nat) (k : InternKey) : InternKey → Nat :=
  fun k' => if k' = k then g k' - 1 else g k'

/-- A global configuration of the concurrent system: the pool state,
`handles k` = the number of live handles whose key is `k` (created by
`intern`/`intern_borrowed`/`clone`, destroyed at the `fetch_sub` of their
drop), and `pending k` = the number of droppers that saw pre-decrement
count 1 at their `fetch_sub` and have not yet run the locked eviction
section. -/
structure Config (T : Type) where
  st : Interner T
  handles : InternKey → Nat
  pending : InternKey → Nat

/-- The interleaving semantics.  Each constructor is one of the source's
atomic sections, in any order and from any thread: the locked body of
`intern_with` (covering `intern` and, with `v` the materialized owned
value, `intern_borrowed`); the unlocked `fetch_add` of `Clone` on a live
handle; the unlocked `fetch_sub` of `Drop` on a live handle, which
schedules the locked eviction exactly when the pre-decrement count was 1;
and the locked eviction section itself (which has no successor
configuration when it panics, i.e. when `evict` returns `none`). -/
inductive Step {T : Type} (hash : T → InternKey) : Config T → Config T → Prop where
  | intern_step (c : Config T) (v : T) :
      Step hash c ⟨(c.st.intern hash v).1, fInc c.handles (hash v), c.pending⟩
  | clone_step (c : Config T) (k : InternKey) (hh : 0 < c.handles k) :
      Step hash c ⟨(c.st.clone_interned ⟨k, 0⟩).1, fInc c.handles k, c.pending⟩
  | drop_sub_step (c : Config T) (k : InternKey) (hh : 0 < c.handles k) :
      Step hash c ⟨(c.st.fetch_sub k).1, fDec c.handles k,
        if (c.st.fetch_sub k).2 = 1 then fInc c.pending k else c.pending⟩
  | evict_step (c : Config T) (k : InternKey) (hp : 0 < c.pending k)
      (s' : Interner T) (he : c.st.evict k = some s') :
      Step hash c ⟨s', c.handles, fDec c.pending k⟩

/-- The initial configuration: a fresh pool, no handles, no pending
evictions. -/
def initConfig (T : Type) : Config T := ⟨Interner.new, fun _ => 0, fun _ => 0⟩

/-- Reachability of a configuration from a fresh pool by any interleaving
of the atomic sections. -/
def Reachable {T : Type} (hash : T → InternKey) (c : Config T) : Prop :=
  Relation.ReflTransGen (Step hash) (initConfig T) c

/-- The global invariant tying the table to the handles: (1) each slot's
count equals the number of live handles for its key; (2) a slot that is
present with count 0 has a pending eviction for its key; (3) the table has
at most one entry per key. -/
def PoolInv {T : Type} (c : Config T) : Prop :=
  (∀ k, countOf c.st k = c.handles k) ∧
  (∀ k, (mapFind c.st.map k).isSome = true → countOf c.st k = 0 → 0 < c.pending k) ∧
  (c.st.map.map Prod.fst).Nodup

theorem countOf_intern_with_self {T : Type} (s : Interner T) (key : InternKey) (f : Unit → T) :
    countOf (s.intern_with key f).1 key = countOf s key + 1 := by
  unfold Interner.intern_with countOf
  cases hm : mapFind s.map key with
  | some fld => simp [mapFind_mapModify_self, hm]
  | none => simp [mapFind_mapModify_self, mapFind, hm]

theorem countOf_intern_with_ne {T : Type} (s : Interner T) (key k' : InternKey) (f : Unit → T)
    (h : k' ≠ key) :
    countOf (s.intern_with key f).1 k' = countOf s k' := by
  unfold Interner.intern_with countOf
  cases hm : mapFind s.map key with
  | some fld => simp [mapFind_mapModify_ne _ _ _ _ h]
  | none => simp [mapFind_mapModify_ne _ _ _ _ h, mapFind, h, Ne.symm h]

theorem find_intern_with_ne {T : Type} (s : Interner T) (key k' : InternKey) (f : Unit → T)
    (h : k' ≠ key) :
    mapFind (s.intern_with key f).1.map k' = mapFind s.map k' := by
  unfold Interner.intern_with
  cases hm : mapFind s.map key with
  | some fld => simp [mapFind_mapModify_ne _ _ _ _ h]
  | none => simp [mapFind_mapModify_ne _ _ _ _ h, mapFind, h, Ne.symm h]

theorem intern_with_keys_hit {T : Type} (s : Interner T) (key : InternKey) (f : Unit → T)
    (fld : InternField T) (hm : mapFind s.map key = some fld) :
    (s.intern_with key f).1.map.map Prod.fst = s.map.map Prod.fst := by
  unfold Interner.intern_with
  rw [hm]
  simp [mapModify_keys]

theorem intern_with_keys_miss {T : Type} (s : Interner T) (key : InternKey) (f : Unit → T)
    (hm : mapFind s.map key = none) :
    (s.intern_with key f).1.map.map Prod.fst = key :: s.map.map Prod.fst := by
  unfold Interner.intern_with
  rw [hm]
  simp [mapModify_keys]

theorem countOf_pos_isSome {T : Type} (s : Interner T) (k : InternKey)
    (h : 0 < countOf s k) : (mapFind s.map k).isSome = true := by
  unfold countOf at h
  cases hm : mapFind s.map k with
  | some fld => rfl
  | none => rw [hm] at h; exact absurd h (by simp)

theorem poolInv_init (T : Type) : PoolInv (initConfig T) := by
  refine ⟨fun k => rfl, fun k hsome _ => ?_, by simp [initConfig, Interner.new]⟩
  simp [initConfig, Interner.new, mapFind] at hsome

theorem poolInv_step {T : Type} (hash : T → InternKey) (c c' : Config T)
    (hinv : PoolInv c) (hstep : Step hash c c') : PoolInv c' := by
  obtain ⟨h1, h2, h3⟩ := hinv
  cases hstep with
  | intern_step v =>
    refine ⟨?_, ?_, ?_⟩
    · intro k
      by_cases hk : k = hash v
      · subst hk
        show countOf (c.st.intern_with (hash v) (fun _ => v)).1 (hash v) = _
        rw [countOf_intern_with_self]
        simp [fInc, h1 (hash v)]
      · show countOf (c.st.intern_with (hash v) (fun _ => v)).1 k = _
        rw [countOf_intern_with_ne _ _ _ _ hk]
        simp [fInc, hk, h1 k]
    · intro k hsome hzero
      by_cases hk : k = hash v
      · subst hk
        rw [show (c.st.intern hash v).1 = (c.st.intern_with (hash v) (fun _ => v)).1 from rfl,
          countOf_intern_with_self] at hzero
        exact absurd hzero (by simp)
      · rw [show (c.st.intern hash v).1 = (c.st.intern_with (hash v) (fun _ => v)).1 from rfl,
          find_intern_with_ne _ _ _ _ hk] at hsome
        rw [show (c.st.intern hash v).1 = (c.st.intern_with (hash v) (fun _ => v)).1 from rfl,
          countOf_intern_with_ne _ _ _ _ hk] at hzero
        exact h2 k hsome hzero
    · show ((c.st.intern_with (hash v) (fun _ => v)).1.map.map Prod.fst).Nodup
      cases hm : mapFind c.st.map (hash v) with
      | some fld => rw [intern_with_keys_hit _ _ _ _ hm]; exact h3
      | none =>
        rw [intern_with_keys_miss _ _ _ hm]
        exact List.Nodup.cons ((mapFind_eq_none_iff _ _).mp hm) h3
  | clone_step k hh =>
    have hpos : 0 < countOf c.st k := by rw [h1 k]; exact hh
    obtain ⟨fld, hm⟩ := Option.isSome_iff_exists.mp (countOf_pos_isSome _ _ hpos)
    have hfind : mapFind (mapModify c.st.map k (fun n => n + 1)) k =
        some ⟨fld.id, fld.count + 1, fld.data⟩ := by
      rw [mapFind_mapModify_self, hm]
      rfl
    refine ⟨?_, ?_, ?_⟩
    · intro k'
      by_cases hk : k' = k
      · subst hk
        have hcnt : countOf c.st k' = fld.count := by simp [countOf, hm]
        simp [Interner.clone_interned, countOf, hfind, fInc]
        rw [← h1 k', hcnt]
      · simp [Interner.clone_interned, countOf, mapFind_mapModify_ne _ _ _ _ hk, fInc, hk]
        have := h1 k'
        simp [countOf] at this
        exact this
    · intro k' hsome hzero
      by_cases hk : k' = k
      · subst hk
        simp [Interner.clone_interned, countOf, hfind] at hzero
      · simp [Interner.clone_interned, mapFind_mapModify_ne _ _ _ _ hk] at hsome
        simp [Interner.clone_interned, countOf, mapFind_mapModify_ne _ _ _ _ hk] at hzero
        simpa [countOf] using h2 k' hsome (by simp [countOf]; exact hzero)
    · simpa [Interner.clone_interned, mapModify_keys] using h3
  | drop_sub_step k hh =>
    have hpos : 0 < countOf c.st k := by rw [h1 k]; exact hh
    obtain ⟨fld, hm⟩ := Option.isSome_iff_exists.mp (countOf_pos_isSome _ _ hpos)
    have hfs : c.st.fetch_sub k =
        (⟨mapModify c.st.map k (fun n => n - 1), c.st.nextId⟩, fld.count) := by
      simp [Interner.fetch_sub, hm]
    have hfind : mapFind (mapModify c.st.map k (fun n => n - 1)) k =
        some ⟨fld.id, fld.count - 1, fld.data⟩ := by
      rw [mapFind_mapModify_self, hm]
      rfl
    have hcnt : fld.count = c.handles k := by
      have := h1 k
      simp [countOf, hm] at this
      exact this
    refine ⟨?_, ?_, ?_⟩
    · intro k'
      by_cases hk : k' = k
      · subst hk
        simp [hfs, countOf, hfind, fDec, hcnt]
      · simp [hfs, countOf, mapFind_mapModify_ne _ _ _ _ hk, fDec, hk]
        have := h1 k'
        simp [countOf] at this
        exact this
    · intro k' hsome hzero
      by_cases hk : k' = k
      · subst hk
        simp [hfs, countOf, hfind] at hzero
        have hone : fld.count = 1 := by omega
        simp [hfs, hone, fInc]
      · simp [hfs, mapFind_mapModify_ne _ _ _ _ hk] at hsome
        simp [hfs, countOf, mapFind_mapModify_ne _ _ _ _ hk] at hzero
        have hp := h2 k' hsome (by simp [countOf]; exact hzero)
        by_cases hpre : (c.st.fetch_sub k).2 = 1
        · simpa [hpre, fInc, hk] using hp
        · simpa [hpre] using hp
    · simpa [hfs, mapModify_keys] using h3
  | evict_step k hp s' he =>
    cases hm : mapFind c.st.map k with
    | none => simp [Interner.evict, hm] at he
    | some fld =>
      by_cases hc : fld.count = 0
      · have hs' : s' = ⟨mapRemove c.st.map k, c.st.nextId⟩ := by
          simp [Interner.evict, hm, hc] at he
          exact he.symm
        subst hs'
        refine ⟨?_, ?_, ?_⟩
        · intro k'
          by_cases hk : k' = k
          · subst hk
            have : c.handles k' = 0 := by
              rw [← h1 k']
              simp [countOf, hm, hc]
            simp [countOf, mapFind_mapRemove_self, this]
          · simp [countOf, mapFind_mapRemove_ne _ _ _ hk]
            have := h1 k'
            simp [countOf] at this
            exact this
        · intro k' hsome hzero
          by_cases hk : k' = k
          · subst hk
            simp [mapFind_mapRemove_self] at hsome
          · simp [mapFind_mapRemove_ne _ _ _ hk] at hsome
            simp [countOf, mapFind_mapRemove_ne _ _ _ hk] at hzero
            have hp' := h2 k' hsome (by simp [countOf]; exact hzero)
            simpa [fDec, hk] using hp'
        · exact h3.sublist (mapRemove_keys_sublist _ _)
      · have hs' : s' = c.st := by
          simp [Interner.evict, hm, hc] at he
          exact he.symm
        subst hs'
        refine ⟨h1, ?_, h3⟩
        intro k' hsome hzero
        by_cases hk : k' = k
        · subst hk
          simp [countOf, hm] at hzero
          exact absurd hzero hc
        · simpa [fDec, hk] using h2 k' hsome hzero

theorem reachable_poolInv {T : Type} (hash : T → InternKey) (c : Config T)
    (hreach : Reachable hash c) : PoolInv c := by
  induction hreach with
  | refl => exact poolInv_init T
  | tail hab hbc ih => exact poolInv_step hash _ _ ih hbc

theorem intern_with_hit {T : Type} (s : Interner T) (key : InternKey) (f : Unit → T)
    (fld : InternField T) (hm : mapFind s.map key = some fld) :
    s.intern_with key f =
      (⟨mapModify s.map key (fun c => c + 1), s.nextId⟩, ⟨key, fld.id⟩, false) := by
  simp [Interner.intern_with, hm]

theorem intern_with_miss {T : Type} (s : Interner T) (key : InternKey) (f : Unit → T)
    (hm : mapFind s.map key = none) :
    s.intern_with key f =
      (⟨(key, ⟨s.nextId, 1, f ()⟩) :: s.map, s.nextId + 1⟩, ⟨key, s.nextId⟩, true) := by
  simp [Interner.intern_with, hm, mapModify]

/-- One way of adding a handle for content already interned under `key`:
either a further `intern`/`intern_borrowed` of content with that key (the
build closure is arbitrary, `some f`), or a `Clone` of an existing handle
(`none`). -/
def createVia {T : Type} (s : Interner T) (key : InternKey) : Option (Unit → T) → Interner T
  | some f => (s.intern_with key f).1
  | none => (s.clone_interned ⟨key, 0⟩).1

/-- A sequence of handle creations for `key`, in any mix of the three
creation methods. -/
def createList {T : Type} (s : Interner T) (key : InternKey) :
    List (Option (Unit → T)) → Interner T
  | [] => s
  | op :: ops => createList (createVia s key op) key ops

/-- `n` successive complete handle drops for `key` (each the `fetch_sub`
followed, when the pre-decrement count was 1, by the locked eviction);
`none` if any of them hits the fatal vacant case. -/
def dropN {T : Type} (s : Interner T) (k : InternKey) : Nat → Option (Interner T)
  | 0 => some s
  | n + 1 =>
    match s.drop_interned k with
    | some s' => dropN s' k n
    | none => none

theorem intern_new {T : Type} (hash : T → InternKey) (v : T) :
    (Interner.new : Interner T).intern hash v =
      (⟨[(hash v, ⟨0, 1, v⟩)], 1⟩, ⟨hash v, 0⟩, true) := by
  simp [Interner.intern, Interner.new, Interner.intern_with, mapFind, mapModify]

theorem createVia_singleton {T : Type} (key : InternKey) (i cnt : Nat) (v : T) (nid : Nat)
    (op : Option (Unit → T)) :
    createVia ⟨[(key, ⟨i, cnt, v⟩)], nid⟩ key op = ⟨[(key, ⟨i, cnt + 1, v⟩)], nid⟩ := by
  cases op with
  | some f => simp [createVia, Interner.intern_with, mapFind, mapModify]
  | none => simp [createVia, Interner.clone_interned, mapModify]

theorem createList_singleton {T : Type} (key : InternKey) (i : Nat) (v : T) (nid : Nat)
    (ops : List (Option (Unit → T))) : ∀ cnt : Nat,
    createList ⟨[(key, ⟨i, cnt, v⟩)], nid⟩ key ops = ⟨[(key, ⟨i, cnt + ops.length, v⟩)], nid⟩ := by
  induction ops with
  | nil => intro cnt; simp [createList]
  | cons op ops ih =>
    intro cnt
    rw [createList, createVia_singleton, ih (cnt + 1)]
    have : cnt + 1 + ops.length = cnt + (ops.length + 1) := by omega
    rw [this]
    simp

theorem drop_singleton_big {T : Type} (key : InternKey) (i cnt : Nat) (v : T) (nid : Nat)
    (h : 2 ≤ cnt) :
    Interner.drop_interned ⟨[(key, ⟨i, cnt, v⟩)], nid⟩ key =
      some ⟨[(key, ⟨i, cnt - 1, v⟩)], nid⟩ := by
  have hne : ¬ cnt = 1 := by omega
  simp [Interner.drop_interned, Interner.fetch_sub, mapFind, mapModify, hne]

theorem drop_singleton_one {T : Type} (key : InternKey) (i : Nat) (v : T) (nid : Nat) :
    Interner.drop_interned ⟨[(key, ⟨i, 1, v⟩)], nid⟩ key = some ⟨[], nid⟩ := by
  simp [Interner.drop_interned, Interner.fetch_sub, mapFind, mapModify, Interner.evict,
    mapRemove]

theorem dropN_singleton {T : Type} (key : InternKey) (i : Nat) (v : T) (nid : Nat) :
    ∀ (n cnt : Nat), n < cnt →
    dropN ⟨[(key, ⟨i, cnt, v⟩)], nid⟩ key n = some ⟨[(key, ⟨i, cnt - n, v⟩)], nid⟩ := by
  intro n
  induction n with
  | zero => intro cnt _; simp [dropN]
  | succ n ih =>
    intro cnt hlt
    have h2 : 2 ≤ cnt := by omega
    rw [dropN, drop_singleton_big key i cnt v nid h2]
    show dropN ⟨[(key, ⟨i, cnt - 1, v⟩)], nid⟩ key n = _
    rw [ih (cnt - 1) (by omega)]
    have : cnt - 1 - n = cnt - (n + 1) := by omega
    rw [this]

/-- The physical storage of the `std::collections::HashMap<InternKey,
InternField<T>>` used by the source: the slot bodies are stored INLINE in
the map's one allocation (the map's value type is `InternField<T>` itself,
and `intern_with` hands out an `extend_lifetime`-transmuted reference into
that storage).  `base` is the address of the current allocation and `cap`
its capacity; the slot for the `i`-th entry lives at address `base + i`.
Growth follows `HashMap`'s documented reallocate-and-move behavior: when an
insert finds the map full, a fresh allocation is made (strictly past the
old one) and every entry is moved into it.  The exact capacity schedule of
`HashMap` is abstracted; any finite capacities force the same relocation. -/
structure HashMapMem (T : Type) where
  entries : List (InternKey × T)
  base : Nat
  cap : Nat
deriving DecidableEq

/-- Index of the entry for `key` in the allocation. -/
def hmIndexOf {T : Type} : List (InternKey × T) → InternKey → Option Nat
  | [], _ => none
  | (k, _) :: rest, key =>
    if k = key then some 0 else (hmIndexOf rest key).map (fun i => i + 1)

/-- The current storage address of the slot holding `key`'s value. -/
def hmAddrOf {T : Type} (m : HashMapMem T) (key : InternKey) : Option Nat :=
  (hmIndexOf m.entries key).map (fun i => m.base + i)

/-- Insert a (new) key: in place while there is spare capacity, otherwise
reallocate, moving every slot to the fresh allocation. -/
def hmInsert {T : Type} (m : HashMapMem T) (key : InternKey) (v : T) : HashMapMem T :=
  if m.entries.length < m.cap then
    ⟨m.entries ++ [(key, v)], m.base, m.cap⟩
  else
    ⟨m.entries ++ [(key, v)], m.base + m.cap, 2 * m.cap + 1⟩

/-- `intern` seen at the storage level: on a miss insert the slot; the
returned address is the one the handle's transmuted slot reference records
at creation time. -/
def intern_addr {T : Type} (m : HashMapMem T) (key : InternKey) (v : T) :
    HashMapMem T × Option Nat :=
  match hmAddrOf m key with
  | some a => (m, some a)
  | none =>
    let m' := hmInsert m key v
    (m', hmAddrOf m' key)

/-- Claim C1: the claim says a slot's storage address never changes while
any handle to it exists, even across table growth.  The source violates
this: slots are stored inline in the `HashMap` and growth relocates them.
Concretely, interning key 1 hands out a handle recording storage address 0,
and a second intern of key 2 forces a reallocation after which key 1's slot
lives at address 1 — different from the address the live handle holds. -/
theorem C1_slot_address_moves :
    (intern_addr (⟨[], 0, 0⟩ : HashMapMem Nat) 1 10).2 = some 0
    ∧ hmAddrOf (intern_addr (intern_addr (⟨[], 0, 0⟩ : HashMapMem Nat) 1 10).1 2 20).1 1 = some 1
    ∧ hmAddrOf (intern_addr (intern_addr (⟨[], 0, 0⟩ : HashMapMem Nat) 1 10).1 2 20).1 1
        ≠ (intern_addr (⟨[], 0, 0⟩ : HashMapMem Nat) 1 10).2 := by
  refine ⟨rfl, rfl, ?_⟩
  decide

/-- Claim C2: on drop of a handle whose fetch-and-subtract returned
pre-decrement count 1, the locked eviction section runs (`drop_interned`
with pre-count 1 is exactly `evict` on the decremented state); under the
lock the count is re-read: if it is 0 the (key, slot) entry is removed and
if it is nonzero the table is left in place unchanged; and in every
reachable configuration the removal case can only arise with no live
handle for the key, so the table never evicts a slot while a live handle
references it. -/
theorem C2_drop_eviction {T : Type} (hash : T → InternKey) (c : Config T) (k : InternKey)
    (fld : InternField T) (hreach : Reachable hash c) (hm : mapFind c.st.map k = some fld) :
    ((c.st.fetch_sub k).2 = 1 → c.st.drop_interned k = (c.st.fetch_sub k).1.evict k)
    ∧ (fld.count = 0 →
        c.st.evict k = some ⟨mapRemove c.st.map k, c.st.nextId⟩ ∧ c.handles k = 0)
    ∧ (fld.count ≠ 0 → c.st.evict k = some c.st) := by
  obtain ⟨h1, _h2, _h3⟩ := reachable_poolInv hash c hreach
  refine ⟨?_, ?_, ?_⟩
  · intro hpre
    simp [Interner.drop_interned, hpre]
  · intro hc
    refine ⟨by simp [Interner.evict, hm, hc], ?_⟩
    rw [← h1 k]
    simp [countOf, hm, hc]
  · intro hc
    simp [Interner.evict, hm, hc]

theorem C2_drop_eviction_witness :
    Interner.evict (⟨[(5, ⟨0, 1, 5⟩)], 1⟩ : Interner Nat) 5 = some ⟨[(5, ⟨0, 1, 5⟩)], 1⟩ :=
  (C2_drop_eviction (fun n => n)
      ⟨⟨[(5, ⟨0, 1, 5⟩)], 1⟩, fInc (fun _ => 0) 5, fun _ => 0⟩ 5 ⟨0, 1, 5⟩
      (Relation.ReflTransGen.single (Step.intern_step (initConfig Nat) 5))
      rfl).2.2 (by decide)

/-- Claim C5 is refuted as stated: there is a reachable instant, outside
every lock-protected critical section, at which a slot is present in the
table with reference count 0 — after the last handle's unlocked
`fetch_sub` and before its locked eviction section runs.  Concretely:
intern key 5 into a fresh pool, then run the dropping handle's `fetch_sub`. -/
theorem C5_counterexample :
    ∃ c : Config Nat, Reachable (fun n => n) c ∧
      ∃ fld : InternField Nat, mapFind c.st.map 5 = some fld ∧ fld.count = 0 := by
  refine ⟨⟨⟨[(5, ⟨0, 0, 5⟩)], 1⟩, fDec (fInc (fun _ => 0) 5) 5, fInc (fun _ => 0) 5⟩,
    ?_, ⟨0, 0, 5⟩, rfl, rfl⟩
  exact Relation.ReflTransGen.tail
    (Relation.ReflTransGen.single (Step.intern_step (initConfig Nat) 5))
    (Step.drop_sub_step
      ⟨⟨[(5, ⟨0, 1, 5⟩)], 1⟩, fInc (fun _ => 0) 5, fun _ => 0⟩ 5 (by decide))

/-- Claim C5 (amended): in every reachable configuration the table has at
most one live slot per content key, and at every instant at which no drop
of the key's last handle is between its unlocked decrement and its locked
re-check (no pending eviction for the key), a slot for the key is present
in the table if and only if its reference count is greater than zero; every
atomic section of the public operations preserves this.  (As stated the
claim fails only in the window between a last-handle `fetch_sub` and its
locked re-check, where the slot is still present with count 0 — see the
counterexample.) -/
theorem C5_table_invariant {T : Type} (hash : T → InternKey) (c : Config T) (k : InternKey)
    (hreach : Reachable hash c) (hp : c.pending k = 0) :
    (c.st.map.map Prod.fst).Nodup
    ∧ ((mapFind c.st.map k).isSome = true ↔ 0 < countOf c.st k) := by
  obtain ⟨h1, h2, h3⟩ := reachable_poolInv hash c hreach
  refine ⟨h3, ?_, countOf_pos_isSome c.st k⟩
  intro hsome
  rcases Nat.eq_zero_or_pos (countOf c.st k) with hz | hpos
  · have := h2 k hsome hz
    rw [hp] at this
    exact absurd this (by simp)
  · exact hpos

theorem C5_table_invariant_witness :
    (((⟨[(5, ⟨0, 1, 5⟩)], 1⟩ : Interner Nat).map.map Prod.fst).Nodup)
    ∧ ((mapFind (⟨[(5, ⟨0, 1, 5⟩)], 1⟩ : Interner Nat).map 5).isSome = true
        ↔ 0 < countOf (⟨[(5, ⟨0, 1, 5⟩)], 1⟩ : Interner Nat) 5) :=
  C5_table_invariant (fun n => n)
    ⟨⟨[(5, ⟨0, 1, 5⟩)], 1⟩, fInc (fun _ => 0) 5, fun _ => 0⟩ 5
    (Relation.ReflTransGen.single (Step.intern_step (initConfig Nat) 5))
    rfl

theorem intern_def {T : Type} (hash : T → InternKey) (s : Interner T) (a : T) :
    s.intern hash a = s.intern_with (hash a) (fun _ => a) := rfl

theorem intern_borrowed_def {T B : Type} (hashB : B → InternKey) (toOwned : B → T)
    (s : Interner T) (b : B) :
    s.intern_borrowed hashB toOwned b = s.intern_with (hashB b) (fun _ => toOwned b) := rfl

theorem intern_with_handle_key {T : Type} (s : Interner T) (key : InternKey) (f : Unit → T) :
    (s.intern_with key f).2.1.key = key := by
  cases hm : mapFind s.map key with
  | some fld => rw [intern_with_hit s key f fld hm]
  | none => rw [intern_with_miss s key f hm]

theorem intern_with_find_self {T : Type} (s : Interner T) (key : InternKey) (f : Unit → T) :
    ∃ fld : InternField T,
      mapFind (s.intern_with key f).1.map key = some fld
      ∧ fld.id = (s.intern_with key f).2.1.fieldId := by
  cases hm : mapFind s.map key with
  | some fld =>
    refine ⟨⟨fld.id, fld.count + 1, fld.data⟩, ?_, ?_⟩
    · rw [intern_with_hit s key f fld hm]
      show mapFind (mapModify s.map key fun c => c + 1) key = _
      rw [mapFind_mapModify_self, hm]
      rfl
    · rw [intern_with_hit s key f fld hm]
  | none =>
    refine ⟨⟨s.nextId, 1, f ()⟩, ?_, ?_⟩
    · rw [intern_with_miss s key f hm]
      simp [mapFind]
    · rw [intern_with_miss s key f hm]

/-- Claim C3: for every k ≥ 1, after creating k handles to the same
content — the first by `intern`, the other k-1 by any mix of `intern`,
`intern_borrowed` (an arbitrary build closure per call) and `clone` — and
then dropping k-1 of them, the entry is still present with count 1 and the
remaining handle dereferences to the value; after dropping the last handle
the entry is gone, and a subsequent `intern` of the same content takes the
`Vacant` arm again, i.e. invokes the build closure afresh. -/
theorem C3_refcount_lifecycle {T : Type} (hash : T → InternKey) (v : T) (k : Nat)
    (_hk : 1 ≤ k) (ops : List (Option (Unit → T))) (hops : ops.length = k - 1) :
    ∃ s2 s3 : Interner T,
      dropN (createList ((Interner.new : Interner T).intern hash v).1 (hash v) ops)
          (hash v) (k - 1) = some s2
      ∧ mapFind s2.map (hash v) = some ⟨0, 1, v⟩
      ∧ s2.deref ((Interner.new : Interner T).intern hash v).2.1 = some v
      ∧ s2.drop_interned (hash v) = some s3
      ∧ mapFind s3.map (hash v) = none
      ∧ (s3.intern hash v).2.2 = true := by
  simp only [intern_new]
  rw [createList_singleton (hash v) 0 v 1 ops 1, hops]
  rw [dropN_singleton (hash v) 0 v 1 (k - 1) (1 + (k - 1)) (by omega)]
  have h1 : 1 + (k - 1) - (k - 1) = 1 := by omega
  rw [h1]
  refine ⟨⟨[(hash v, ⟨0, 1, v⟩)], 1⟩, ⟨[], 1⟩, rfl, by simp [mapFind],
    by simp [Interner.deref, mapFind], drop_singleton_one _ _ _ _, rfl,
    by simp [Interner.intern, Interner.intern_with, mapFind]⟩

theorem C3_refcount_lifecycle_witness :
    ∃ s2 s3 : Interner Nat,
      dropN (createList ((Interner.new : Interner Nat).intern (fun n => n) 7).1 7 [none]) 7 1
          = some s2
      ∧ mapFind s2.map 7 = some ⟨0, 1, 7⟩
      ∧ s2.deref ((Interner.new : Interner Nat).intern (fun n => n) 7).2.1 = some 7
      ∧ s2.drop_interned 7 = some s3
      ∧ mapFind s3.map 7 = none
      ∧ (s3.intern (fun n => n) 7).2.2 = true :=
  C3_refcount_lifecycle (fun n => n) 7 2 (by decide) [none] rfl

/-- Claim C4: in `intern_with` the build closure is invoked exactly when
the key is absent (the `Vacant` arm): on a hit the result does not depend
on the closure at all and the existing slot is reused with its count
bumped; in particular `intern_borrowed` does not materialize an owned copy
(does not invoke `to_owned`) when an entry for equal content already
exists. -/
theorem C4_build_only_on_miss {T B : Type} (hashB : B → InternKey) (s : Interner T)
    (key : InternKey) (f : Unit → T) :
    ((s.intern_with key f).2.2 = true ↔ mapFind s.map key = none)
    ∧ (∀ fld : InternField T, mapFind s.map key = some fld →
        (∀ g : Unit → T, s.intern_with key f = s.intern_with key g)
        ∧ mapFind (s.intern_with key f).1.map key = some ⟨fld.id, fld.count + 1, fld.data⟩)
    ∧ (∀ b : B, mapFind s.map (hashB b) ≠ none →
        ∀ tO tO2 : B → T, s.intern_borrowed hashB tO b = s.intern_borrowed hashB tO2 b) := by
  refine ⟨?_, ?_, ?_⟩
  · cases hm : mapFind s.map key with
    | some fld => rw [intern_with_hit s key f fld hm]; simp [hm]
    | none => rw [intern_with_miss s key f hm]; simp
  · intro fld hm
    refine ⟨fun g => ?_, ?_⟩
    · rw [intern_with_hit s key f fld hm, intern_with_hit s key g fld hm]
    · rw [intern_with_hit s key f fld hm]
      show mapFind (mapModify s.map key fun c => c + 1) key = _
      rw [mapFind_mapModify_self, hm]
      rfl
  · intro b hb tO tO2
    rcases Option.ne_none_iff_exists.mp hb with ⟨fld, hm⟩
    rw [intern_borrowed_def, intern_borrowed_def,
      intern_with_hit s (hashB b) _ fld hm.symm, intern_with_hit s (hashB b) _ fld hm.symm]

theorem C4_build_only_on_miss_witness :
    (((⟨[(7, ⟨0, 1, 7⟩)], 1⟩ : Interner Nat).intern_with 7 (fun _ => 7)).2.2 = true
        ↔ mapFind (⟨[(7, ⟨0, 1, 7⟩)], 1⟩ : Interner Nat).map 7 = none)
    ∧ ((⟨[(7, ⟨0, 1, 7⟩)], 1⟩ : Interner Nat).intern_with 7 (fun _ => 7)
        = (⟨[(7, ⟨0, 1, 7⟩)], 1⟩ : Interner Nat).intern_with 7 (fun _ => 99))
    ∧ ((⟨[(7, ⟨0, 1, 7⟩)], 1⟩ : Interner Nat).intern_borrowed (fun n : Nat => n) (fun n => n) 7
        = (⟨[(7, ⟨0, 1, 7⟩)], 1⟩ : Interner Nat).intern_borrowed (fun n : Nat => n)
            (fun n => n + 1) 7) :=
  ⟨(C4_build_only_on_miss (fun n : Nat => n) ⟨[(7, ⟨0, 1, 7⟩)], 1⟩ 7 (fun _ => 7)).1,
    ((C4_build_only_on_miss (fun n : Nat => n) ⟨[(7, ⟨0, 1, 7⟩)], 1⟩ 7 (fun _ => 7)).2.1
      ⟨0, 1, 7⟩ rfl).1 (fun _ => 99),
    (C4_build_only_on_miss (fun n : Nat => n) ⟨[(7, ⟨0, 1, 7⟩)], 1⟩ 7 (fun _ => 7)).2.2
      7 (by decide) (fun n => n) (fun n => n + 1)⟩

/-- Claim C6: interning two values with equal canonical encodings (equal
content keys) into the same pool yields handles referencing the same
stored slot — the same allocation identity, not merely an equal value —
and the handles compare equal; likewise an `intern` followed by an
`intern_borrowed` of equal content yields two handles to the same slot
that dereference to the same stored value and compare equal. -/
theorem C6_intern_identity {T B : Type} (hash : T → InternKey) (hashB : B → InternKey)
    (toOwned : B → T) (s : Interner T) (a b : T) (hab : hash a = hash b) :
    (((s.intern hash a).1.intern hash b).2.1.fieldId = (s.intern hash a).2.1.fieldId
      ∧ Interned.beq (((s.intern hash a).1.intern hash b).2.1) ((s.intern hash a).2.1) = true)
    ∧ (∀ w : B, hashB w = hash a →
        ((s.intern hash a).1.intern_borrowed hashB toOwned w).2.1.fieldId
            = (s.intern hash a).2.1.fieldId
        ∧ Interned.beq (((s.intern hash a).1.intern_borrowed hashB toOwned w).2.1)
            ((s.intern hash a).2.1) = true
        ∧ ∃ u : T,
            ((s.intern hash a).1.intern_borrowed hashB toOwned w).1.deref
                (((s.intern hash a).1.intern_borrowed hashB toOwned w).2.1) = some u
            ∧ ((s.intern hash a).1.intern_borrowed hashB toOwned w).1.deref
                ((s.intern hash a).2.1) = some u) := by
  obtain ⟨fld, hfind0, hid0⟩ := intern_with_find_self s (hash a) (fun _ => a)
  have hfind : mapFind (s.intern hash a).1.map (hash a) = some fld := hfind0
  have hid : fld.id = (s.intern hash a).2.1.fieldId := hid0
  have hkey1 : (s.intern hash a).2.1.key = hash a := intern_with_handle_key s (hash a) _
  constructor
  · have e2 : (s.intern hash a).1.intern hash b
        = (s.intern hash a).1.intern_with (hash a) (fun _ => b) := by
      rw [intern_def hash ((s.intern hash a).1) b, hab]
    rw [e2, intern_with_hit ((s.intern hash a).1) (hash a) (fun _ => b) fld hfind]
    exact ⟨hid, by simp [Interned.beq, hkey1]⟩
  · intro w hw
    have e3 : (s.intern hash a).1.intern_borrowed hashB toOwned w
        = (s.intern hash a).1.intern_with (hash a) (fun _ => toOwned w) := by
      rw [intern_borrowed_def, hw]
    rw [e3, intern_with_hit ((s.intern hash a).1) (hash a) (fun _ => toOwned w) fld hfind]
    refine ⟨hid, by simp [Interned.beq, hkey1], fld.data, ?_, ?_⟩
    · simp [Interner.deref, mapFind_mapModify_self, hfind]
    · simp [Interner.deref, hkey1, mapFind_mapModify_self, hfind]

theorem C6_intern_identity_witness :
    ((((Interner.new : Interner Nat).intern (fun n => n) 7).1.intern (fun n => n) 7).2.1.fieldId
        = ((Interner.new : Interner Nat).intern (fun n => n) 7).2.1.fieldId
      ∧ Interned.beq ((((Interner.new : Interner Nat).intern (fun n => n) 7).1.intern
            (fun n => n) 7).2.1)
          (((Interner.new : Interner Nat).intern (fun n => n) 7).2.1) = true)
    ∧ (((Interner.new : Interner Nat).intern (fun n => n) 7).1.intern_borrowed
          (fun n : Nat => n) (fun n => n) 7).2.1.fieldId
        = ((Interner.new : Interner Nat).intern (fun n => n) 7).2.1.fieldId :=
  ⟨(C6_intern_identity (fun n => n) (fun n : Nat => n) (fun n => n)
      Interner.new 7 7 rfl).1,
    ((C6_intern_identity (fun n => n) (fun n : Nat => n) (fun n => n)
      Interner.new 7 7 rfl).2 7 rfl).1⟩

/-- Claim C7: equality and hashing of handles are defined purely by
content-key equality (`PartialEq` compares `self.key`, `Hash` feeds
`self.key` to the hasher), independent of which slot or state produced
them: handles from interning values with equal canonical encodings compare
equal and have identical hash input; handles of values with distinct
content keys compare unequal. -/
theorem C7_handle_eq_by_key {T : Type} (hash : T → InternKey) (s1 s2 : Interner T) (a b : T) :
    (hash a = hash b →
      Interned.beq ((s1.intern hash a).2.1) ((s2.intern hash b).2.1) = true
      ∧ (s1.intern hash a).2.1.hashInput = (s2.intern hash b).2.1.hashInput)
    ∧ (hash a ≠ hash b →
      Interned.beq ((s1.intern hash a).2.1) ((s2.intern hash b).2.1) = false) := by
  have k1 : (s1.intern hash a).2.1.key = hash a := intern_with_handle_key s1 (hash a) _
  have k2 : (s2.intern hash b).2.1.key = hash b := intern_with_handle_key s2 (hash b) _
  constructor
  · intro hab
    exact ⟨by simp [Interned.beq, k1, k2, hab], by simp [Interned.hashInput, k1, k2, hab]⟩
  · intro hab
    simp [Interned.beq, k1, k2, hab]

theorem C7_handle_eq_by_key_witness :
    (Interned.beq (((Interner.new : Interner Nat).intern (fun n => n) 3).2.1)
        (((Interner.new : Interner Nat).intern (fun n => n) 3).2.1) = true
      ∧ ((Interner.new : Interner Nat).intern (fun n => n) 3).2.1.hashInput
        = ((Interner.new : Interner Nat).intern (fun n => n) 3).2.1.hashInput)
    ∧ Interned.beq (((Interner.new : Interner Nat).intern (fun n => n) 3).2.1)
        (((Interner.new : Interner Nat).intern (fun n => n) 4).2.1) = false :=
  ⟨(C7_handle_eq_by_key (fun n => n) Interner.new Interner.new 3 3).1 rfl,
    (C7_handle_eq_by_key (fun n => n) Interner.new Interner.new 3 4).2 (by decide)⟩

/-- Claim C8: in the locked eviction section of handle drop, finding the
key absent is exactly the fatal case (the source's `Vacant` arm panics —
modelled by `evict` returning `none` — rather than returning or silently
continuing), and it is the only failure: with the key present `evict`
always returns a successor state; `intern`/`intern_borrowed` are total and
always hand back a successfully constructed handle carrying the content
key. -/
theorem C8_evict_fatal_iff_absent {T : Type} (hash : T → InternKey) (s : Interner T)
    (k : InternKey) (v : T) :
    (s.evict k = none ↔ mapFind s.map k = none)
    ∧ (∀ fld : InternField T, mapFind s.map k = some fld → ∃ s' : Interner T, s.evict k = some s')
    ∧ (s.intern hash v).2.1.key = hash v := by
  refine ⟨?_, ?_, intern_with_handle_key s (hash v) _⟩
  · cases hm : mapFind s.map k with
    | some fld => by_cases hc : fld.count = 0 <;> simp [Interner.evict, hm, hc]
    | none => simp [Interner.evict, hm]
  · intro fld hm
    by_cases hc : fld.count = 0 <;> simp [Interner.evict, hm, hc]

theorem C8_evict_fatal_iff_absent_witness :
    (Interner.evict (⟨[], 0⟩ : Interner Nat) 7 = none ↔ mapFind ([] : List (InternKey × InternField Nat)) 7 = none)
    ∧ (∃ s' : Interner Nat, Interner.evict (⟨[(7, ⟨0, 1, 7⟩)], 1⟩ : Interner Nat) 7 = some s') :=
  ⟨(C8_evict_fatal_iff_absent (fun n => n) ⟨[], 0⟩ 7 7).1,
    (C8_evict_fatal_iff_absent (fun n => n) ⟨[(7, ⟨0, 1, 7⟩)], 1⟩ 7 7).2.1 ⟨0, 1, 7⟩ rfl⟩

/-- Claim C9: cloning a handle increments its slot's count by exactly one
and yields a handle with the same key and slot reference, leaving the
table's set of keys and every slot's identity and stored value unchanged
(the `Clone` impl is a `fetch_add` on the slot plus a copy of the handle's
triple; it never touches the table lock or the table structure). -/
theorem C9_clone_frame {T : Type} (s : Interner T) (h : Interned T) (fld : InternField T)
    (hm : mapFind s.map h.key = some fld) :
    (s.clone_interned h).2 = h
    ∧ mapFind (s.clone_interned h).1.map h.key = some ⟨fld.id, fld.count + 1, fld.data⟩
    ∧ (∀ k : InternKey, k ≠ h.key →
        mapFind (s.clone_interned h).1.map k = mapFind s.map k)
    ∧ (s.clone_interned h).1.map.map Prod.fst = s.map.map Prod.fst
    ∧ (∀ (k : InternKey) (fld' : InternField T),
        mapFind (s.clone_interned h).1.map k = some fld' →
        ∃ fld0 : InternField T, mapFind s.map k = some fld0
          ∧ fld'.data = fld0.data ∧ fld'.id = fld0.id) := by
  refine ⟨rfl, ?_, ?_, ?_, ?_⟩
  · show mapFind (mapModify s.map h.key fun c => c + 1) h.key = _
    rw [mapFind_mapModify_self, hm]
    rfl
  · intro k hk
    exact mapFind_mapModify_ne s.map h.key k _ hk
  · exact mapModify_keys s.map h.key _
  · intro k fld' hfind'
    by_cases hk : k = h.key
    · rw [hk] at hfind'
      rw [hk]
      have h2 : some (⟨fld.id, fld.count + 1, fld.data⟩ : InternField T) = some fld' := by
        rw [← hfind', show mapFind (s.clone_interned h).1.map h.key
              = mapFind (mapModify s.map h.key fun c => c + 1) h.key from rfl,
          mapFind_mapModify_self, hm]
        rfl
      have h3 := Option.some.inj h2
      subst h3
      exact ⟨fld, hm, rfl, rfl⟩
    · rw [show mapFind (s.clone_interned h).1.map k
            = mapFind (mapModify s.map h.key fun c => c + 1) k from rfl,
        mapFind_mapModify_ne s.map h.key k _ hk] at hfind'
      exact ⟨fld', hfind', rfl, rfl⟩

theorem C9_clone_frame_witness :
    ((⟨[(7, ⟨0, 1, 7⟩)], 1⟩ : Interner Nat).clone_interned ⟨7, 0⟩).2 = ⟨7, 0⟩
    ∧ mapFind ((⟨[(7, ⟨0, 1, 7⟩)], 1⟩ : Interner Nat).clone_interned ⟨7, 0⟩).1.map 7
        = some ⟨0, 2, 7⟩
    ∧ ((⟨[(7, ⟨0, 1, 7⟩)], 1⟩ : Interner Nat).clone_interned ⟨7, 0⟩).1.map.map Prod.fst
        = [(7, (⟨0, 1, 7⟩ : InternField Nat))].map Prod.fst :=
  ⟨(C9_clone_frame ⟨[(7, ⟨0, 1, 7⟩)], 1⟩ ⟨7, 0⟩ ⟨0, 1, 7⟩ rfl).1,
    (C9_clone_frame ⟨[(7, ⟨0, 1, 7⟩)], 1⟩ ⟨7, 0⟩ ⟨0, 1, 7⟩ rfl).2.1,
    (C9_clone_frame ⟨[(7, ⟨0, 1, 7⟩)], 1⟩ ⟨7, 0⟩ ⟨0, 1, 7⟩ rfl).2.2.2.1⟩
